import Mathlib

/-!
Shallow Lean embedding of the pill-counting vision service
(`src/services/cvService.ts`, two build variants) and its UI types
(`src/types.ts`).

The repository ships two variants of `CVService` in `cvService.ts`:

* variant 1 ("clustering mode"): gamma/contrast enhancement, watershed
  segmentation, feature extraction into `Pill` records carrying an HSV/shape
  feature vector, then greedy online clustering (`clusterPills`);
* variant 2 ("binary mode"): the same segmentation, feature extraction into
  `Pill` records carrying a color label and a normal/broken status, then a
  radius-sorted duplicate merger.

Numbers: JavaScript numbers are modelled as exact rationals (`ℚ`).  The
irrational library routines `Math.PI`, `Math.sqrt`, `Math.log10` and
`Math.pow` are abstracted as parameters (`MathPrims`, or an explicit function
argument), since their exact values never decide any verified property; all
other arithmetic (`+ - * /`, `abs`, `min`, `max`, comparisons, `Math.round`,
`Math.sign`) is translated exactly.  `ℚ` division by zero yields `0` where
JavaScript would yield `NaN`/`Infinity`; each place where that could matter is
noted at the definition.

Image-level operations (capture, color conversion, blur, Canny, morphology,
distance transform, watershed, contour tracing) are not re-implemented: the
feature-extraction loop is modelled from the point where the code has, for one
watershed label, the scalar measurements OpenCV returns for it (`contourArea`,
`arcLength`, `moments`, `countNonZero` of the eroded mask, `mean` under either
mask).  A `Region` record carries exactly those measurements, and the loop
body is translated faithfully on top of them.
-/

set_option autoImplicit false
set_option maxRecDepth 8000

namespace PillCV

/-- `Math.round` of JavaScript on the nonnegative values used here:
half-way cases round toward `+∞`, so `round x = ⌊x + 1/2⌋`. -/
def jsRound (x : ℚ) : ℤ := ⌊x + 1 / 2⌋

/-- `Math.sign`. -/
def jsSign (x : ℚ) : ℚ := if 0 < x then 1 else if x < 0 then -1 else 0

/-- The irrational math routines the service calls, abstracted: `piQ` stands
for `Math.PI`, `sqrtQ x` for `Math.sqrt x`, `log10Q x` for `Math.log10 x`.
No verified property depends on their values. -/
structure MathPrims where
  piQ : ℚ
  sqrtQ : ℚ → ℚ
  log10Q : ℚ → ℚ

/-- Mean color triple, `cv.mean` result channels 0..2. -/
structure RGB where
  r : ℚ
  g : ℚ
  b : ℚ
deriving DecidableEq

/-- `cv.Scalar(v0, v1, v2, v3)`. -/
structure Scalar where
  v0 : ℚ
  v1 : ℚ
  v2 : ℚ
  v3 : ℚ
deriving DecidableEq

/-- The feature vector variant 1 stores on each pill. -/
structure Features where
  hue : ℚ
  saturation : ℚ
  value : ℚ
  perimeter : ℚ
  convexArea : ℚ
  huMoment : ℚ
  circularity : ℚ
deriving DecidableEq

/-- Variant 1's `Pill`: detected object with feature vector and (mutable in
JS, functionally updated here) cluster assignment fields. -/
structure Pill where
  id : ℤ
  x : ℚ
  y : ℚ
  area : ℚ
  radius : ℚ
  color : RGB
  features : Features
  clusterLabel : String
  clusterColor : String
  contourColor : Scalar
deriving DecidableEq

/-- The cluster-independent data of a variant-1 pill: everything except the
three assignment fields `clusterPills` overwrites. -/
structure PillCore where
  id : ℤ
  x : ℚ
  y : ℚ
  area : ℚ
  radius : ℚ
  color : RGB
  features : Features
deriving DecidableEq

/-- Forget a pill's cluster-assignment fields. -/
def Pill.core (p : Pill) : PillCore :=
  ⟨p.id, p.x, p.y, p.area, p.radius, p.color, p.features⟩

/-- Variant 2's per-pill status, `'normal' | 'broken'`. -/
inductive PillStatus where
  | normal : PillStatus
  | broken : PillStatus
deriving DecidableEq

/-- Variant 2's `Pill` (`src/types.ts`). -/
structure PillB where
  id : ℤ
  x : ℚ
  y : ℚ
  area : ℚ
  radius : ℚ
  color : RGB
  colorLabel : String
  status : PillStatus
deriving DecidableEq

/-- One entry of variant 1's cluster statistics (`ClusterStat`). -/
structure ClusterStat where
  label : String
  count : ℕ
  color : String
deriving DecidableEq

/-- The scalar measurements the feature-extraction loop reads for one
watershed label `i`: `label` is the loop index, `area = cv.contourArea`,
`perimeter = cv.arcLength(contour, true)`, `m00/m10/m01/mu20/mu02` from
`cv.moments`, `convexArea = cv.contourArea(hull)`, `erodedCount =
cv.countNonZero(innerMask)`, `meanEroded / meanOrig = cv.mean(image, mask)`
under the eroded respectively the unedited label mask.  Labels whose contour
list came back empty are skipped by the loop before any of these reads, so
they simply do not occur in the region list. -/
structure Region where
  label : ℤ
  area : ℚ
  perimeter : ℚ
  m00 : ℚ
  m10 : ℚ
  m01 : ℚ
  mu20 : ℚ
  mu02 : ℚ
  convexArea : ℚ
  erodedCount : ℕ
  meanEroded : RGB
  meanOrig : RGB
deriving DecidableEq

/-- Result of `getHSV`. -/
structure HSV where
  h : ℚ
  s : ℚ
  v : ℚ
deriving DecidableEq

/-- `getHSV` of variant 1, translated statement by statement.  The JS guards
`diff == 0` before dividing, so the `ℚ` division-by-zero convention is never
exercised on the guarded path; `diffc`'s division by `diff` only runs with
`diff ≠ 0`. -/
def getHSV (r g b : ℚ) : HSV :=
  let rabs := r / 255
  let gabs := g / 255
  let babs := b / 255
  let v := max rabs (max gabs babs)
  let diff := v - min rabs (min gabs babs)
  let diffc := fun (c : ℚ) => (v - c) / 6 / diff + 1 / 2
  let percentRoundFn := fun (num : ℚ) => (jsRound (num * 100) : ℚ) / 100
  let hs : ℚ × ℚ :=
    if diff = 0 then (0, 0)
    else
      let s := diff / v
      let rr := diffc rabs
      let gg := diffc gabs
      let bb := diffc babs
      let h0 : ℚ :=
        if rabs = v then bb - gg
        else if gabs = v then 1 / 3 + rr - bb
        else if babs = v then 2 / 3 + gg - rr
        else 0
      let h1 := if h0 < 0 then h0 + 1 else if 1 < h0 then h0 - 1 else h0
      (h1, s)
  { h := (jsRound (hs.1 * 360) : ℚ)
    s := percentRoundFn (hs.2 * 100)
    v := percentRoundFn (v * 100) }

/-- `determineColor` of variant 2, translated statement by statement.  The
only division by a possibly-zero quantity, `d / max`, is guarded by
`max === 0` (for `s`) and by `max === min` (for `h`), exactly as in the JS. -/
def determineColor (r g b : ℚ) : String :=
  let r' := r / 255
  let g' := g / 255
  let b' := b / 255
  let mx := max r' (max g' b')
  let mn := min r' (min g' b')
  let v := mx
  let d := mx - mn
  let s := if mx = 0 then 0 else d / mx
  let h : ℚ :=
    if mx = mn then 0
    else
      let h0 : ℚ :=
        if mx = r' then (g' - b') / d + (if g' < b' then 6 else 0)
        else if mx = g' then (b' - r') / d + 2
        else if mx = b' then (r' - g') / d + 4
        else 0
      h0 / 6
  let H := h * 360
  let S := s * 100
  let V := v * 100
  if S < 25 then
    if 60 < V then "白色"
    else if 30 < V then "灰色"
    else "黑色"
  else if H < 20 ∨ 340 ≤ H then "紅色"
  else if 20 ≤ H ∧ H < 45 then "橘色"
  else if 45 ≤ H ∧ H < 75 then "黃色"
  else if 75 ≤ H ∧ H < 165 then "綠色"
  else if 165 ≤ H ∧ H < 260 then "藍色"
  else if 260 ≤ H ∧ H < 340 then "紫色"
  else "其他"

/-! ### Image enhancement (variant 1): contrast then gamma -/

/-- Clamp-and-truncate a clamped `ℚ` into a byte, modelling a JS `Uint8Array`
store (`ToUint8`: truncate toward zero — `Int.floor` on the nonnegative values
produced by the clamp — then reduce mod 256). -/
def toUint8 (x : ℚ) : Fin 256 :=
  ⟨(max 0 (min 255 x)).floor.toNat % 256, Nat.mod_lt _ (by norm_num)⟩

/-- One entry of `applyGammaCorrection`'s lookup table:
`lut[i] = Math.max(0, Math.min(255, Math.pow(i / 255.0, gamma) * 255.0))`
stored into a `Uint8Array`.  `gpow i` abstracts `Math.pow(i / 255.0, gamma)`
for the invocation's gamma. -/
def lutEntry (gpow : Fin 256 → ℚ) (i : Fin 256) : Fin 256 :=
  toUint8 (gpow i * 255)

/-- The 256-entry lookup table `applyGammaCorrection` builds once per
invocation, as the list filled by its `for (let i = 0; i < 256; i++)` loop. -/
def lutTable (gpow : Fin 256 → ℚ) : List (Fin 256) :=
  (List.finRange 256).map (lutEntry gpow)

/-- The per-pixel loop of `applyGammaCorrection`: every byte of the
destination buffer is replaced by its lookup-table image,
`data[i] = lut[data[i]]`. -/
def applyGammaCorrection (gpow : Fin 256 → ℚ) (data : List (Fin 256)) :
    List (Fin 256) :=
  let lut := lutTable gpow
  data.map (fun v => lut.getD v.val 0)

/-- The contrast step `srcRGB.convertTo(srcRGB, -1, contrast, 0)`: each byte
becomes `saturate_cast<uchar>(v * contrast + 0)`, i.e. round then clamp to
`[0, 255]`; `rnd` abstracts OpenCV's `cvRound`. -/
def contrastStep (rnd : ℚ → ℤ) (c : ℚ) (v : Fin 256) : Fin 256 :=
  toUint8 ((rnd ((v.val : ℚ) * c) : ℚ))

/-- The enhancement stage of variant 1's `processFrame`: the contrast
`convertTo` over the whole buffer, then `applyGammaCorrection` on the
result. -/
def enhanceChannels (rnd : ℚ → ℤ) (gpow : Fin 256 → ℚ) (c : ℚ)
    (data : List (Fin 256)) : List (Fin 256) :=
  applyGammaCorrection gpow (data.map (contrastStep rnd c))

/-! ### Feature extraction -/

/-- The body of variant 1's feature-extraction loop for one region, from
`let area = cv.contourArea(contour)` to `detectedPills.push({...})`:
`none` when the `area > 200 && area < 10000` filter rejects the region,
otherwise the pushed pill.  Note the translation of
`circularity = 0; if (perimeter > 0) { circularity = 4πA/(p·p) }`,
of `hu0 = 0.0; if (M.m00 > 0) { hu0 = (mu20+mu02)/(m00*m00) }`,
of `huLog = -1 * Math.sign(hu0) * Math.log10(Math.abs(hu0) || 1e-10)`
(`x || 1e-10` falls back exactly when `x` is `0`), and of
`maskToUse = nonZero > 10 ? innerMask : tempMask`.  `cx`/`cy` divide by
`m00`; `ℚ` gives `0` where JS gives `NaN` for a zero `m00`, a state no
verified property touches. -/
def extractStepV1 (P : MathPrims) (reg : Region) : Option Pill :=
  if 200 < reg.area ∧ reg.area < 10000 then
    let cx := reg.m10 / reg.m00
    let cy := reg.m01 / reg.m00
    let circularity : ℚ :=
      if 0 < reg.perimeter then
        4 * P.piQ * reg.area / (reg.perimeter * reg.perimeter)
      else 0
    let hu0 : ℚ := if 0 < reg.m00 then (reg.mu20 + reg.mu02) / (reg.m00 * reg.m00) else 0
    let huLog : ℚ :=
      -1 * jsSign hu0 * P.log10Q (if |hu0| = 0 then 1 / 10000000000 else |hu0|)
    let maskColor := if 10 < reg.erodedCount then reg.meanEroded else reg.meanOrig
    let hsv := getHSV maskColor.r maskColor.g maskColor.b
    let boostedSaturation := min 100 (hsv.s * (5 / 2))
    some
      { id := reg.label
        x := cx
        y := cy
        area := reg.area
        radius := P.sqrtQ (reg.area / P.piQ)
        color := maskColor
        features :=
          { hue := hsv.h
            saturation := boostedSaturation
            value := hsv.v
            perimeter := reg.perimeter
            convexArea := reg.convexArea
            huMoment := huLog
            circularity := circularity }
        clusterLabel := "?"
        clusterColor := "#FFFFFF"
        contourColor := ⟨255, 255, 255, 255⟩ }
  else none

/-- Variant 1's whole extraction loop over the labels that produced a
contour, in label order. -/
def extractV1 (P : MathPrims) (regions : List Region) : List Pill :=
  regions.filterMap (extractStepV1 P)

/-- The body of variant 2's feature-extraction loop for one region:
`none` when `area > 200 && area < 8000 && perimeter > 0` rejects it,
otherwise the pushed pill, with
`status = circularity > 0.65 ? 'normal' : 'broken'` and the color label from
`determineColor` over the mean color under
`maskToUse = nonZero > 10 ? innerMask : tempMask`.  (Variant 2 reads no
hull or central moments; those `Region` fields are simply unused here.) -/
def extractStepV2 (P : MathPrims) (reg : Region) : Option PillB :=
  if 200 < reg.area ∧ reg.area < 8000 ∧ 0 < reg.perimeter then
    let circularity : ℚ := 4 * P.piQ * reg.area / (reg.perimeter * reg.perimeter)
    let cx := reg.m10 / reg.m00
    let cy := reg.m01 / reg.m00
    let maskColor := if 10 < reg.erodedCount then reg.meanEroded else reg.meanOrig
    let colorLabel := determineColor maskColor.r maskColor.g maskColor.b
    let status : PillStatus :=
      if 65 / 100 < circularity then PillStatus.normal else PillStatus.broken
    some
      { id := reg.label
        x := cx
        y := cy
        area := reg.area
        radius := P.sqrtQ (reg.area / P.piQ)
        color := maskColor
        colorLabel := colorLabel
        status := status }
  else none

/-- Variant 2's whole extraction loop. -/
def extractV2 (P : MathPrims) (regions : List Region) : List PillB :=
  regions.filterMap (extractStepV2 P)

theorem extractStepV1_some_spec {P : MathPrims} {reg : Region} {p : Pill}
    (h : extractStepV1 P reg = some p) :
    p.id = reg.label ∧ p.area = reg.area ∧ p.radius = P.sqrtQ (reg.area / P.piQ) ∧
    p.features.circularity =
      (if 0 < reg.perimeter then 4 * P.piQ * reg.area / (reg.perimeter * reg.perimeter)
       else 0) ∧
    p.color = (if 10 < reg.erodedCount then reg.meanEroded else reg.meanOrig) ∧
    200 < reg.area ∧ reg.area < 10000 := by
  unfold extractStepV1 at h
  split at h
  · rename_i hcond
    injection h with h
    subst h
    exact ⟨rfl, rfl, rfl, rfl, rfl, hcond.1, hcond.2⟩
  · cases h

theorem extractStepV2_some_spec {P : MathPrims} {reg : Region} {p : PillB}
    (h : extractStepV2 P reg = some p) :
    p.id = reg.label ∧ p.area = reg.area ∧ p.radius = P.sqrtQ (reg.area / P.piQ) ∧
    p.color = (if 10 < reg.erodedCount then reg.meanEroded else reg.meanOrig) ∧
    200 < reg.area ∧ reg.area < 8000 ∧ 0 < reg.perimeter ∧
    p.status = (if 65 / 100 < 4 * P.piQ * reg.area / (reg.perimeter * reg.perimeter)
                then PillStatus.normal else PillStatus.broken) := by
  unfold extractStepV2 at h
  split at h
  · rename_i hcond
    injection h with h
    subst h
    exact ⟨rfl, rfl, rfl, rfl, hcond.1, hcond.2.1, hcond.2.2, rfl⟩
  · cases h

/-! ### The outer `processFrame` guard (both variants) -/

/-- The control skeleton of `processFrame`, common to both variants: the
early `if (!cv || !cv.Mat) return {}` guard, the
`getContext('2d')`-is-null throw, and the `try { ... } catch { return {} }`
boundary.  `body` stands for the whole pipeline run inside the `try`:
`Except.error` when any statement of it throws, `Except.ok` with the stats
object otherwise.  A `none` result is the empty partial object `{}`. -/
def processFrameGuard {α : Type} (cvReady : Bool) (ctx : Option Unit)
    (body : Except Unit α) : Option α :=
  if cvReady then
    match ctx with
    | none => none
    | some _ =>
      match body with
      | Except.error _ => none
      | Except.ok s => some s
  else none

/-! ### Greedy online clustering (variant 1, `clusterPills`) -/

/-- One internal cluster record of `clusterPills`. -/
structure Cluster where
  label : Char
  center : Pill
  members : List Pill
  colorHex : String
  colorScalar : Scalar
deriving DecidableEq

/-- The fixed cluster display palette, hex side. -/
def clusterColorsHex : List String :=
  ["#00FFFF", "#FF00FF", "#FFFF00", "#00FF00", "#FFA500", "#FF0000"]

/-- The fixed cluster display palette, `cv.Scalar` side. -/
def clusterColorsScalar : List Scalar :=
  [⟨0, 255, 255, 255⟩, ⟨255, 0, 255, 255⟩, ⟨255, 255, 0, 255⟩,
   ⟨0, 255, 0, 255⟩, ⟨255, 165, 0, 255⟩, ⟨255, 0, 0, 255⟩]

/-- `relDiff` of `clusterPills`. -/
def relDiff (a b : ℚ) : ℚ :=
  let mx := max |a| |b|
  if mx = 0 then 0 else |a - b| / mx

/-- The three hard per-feature gates: a cluster is skipped (`return` inside
the JS `forEach`) when any of them trips. -/
def gateReject (cluster : Cluster) (pill : Pill) : Prop :=
  35 / 100 < relDiff pill.area cluster.center.area ∨
  18 / 100 < |pill.features.circularity - cluster.center.features.circularity| ∨
  20 < |pill.features.saturation - cluster.center.features.saturation|

instance (cluster : Cluster) (pill : Pill) : Decidable (gateReject cluster pill) := by
  unfold gateReject
  infer_instance

/-- The weighted feature distance of `clusterPills`, translated term by
term (hue wrap at 180°, grayscale hue down-weighting, division by the sum of
the weights used). -/
def weightedDist (cluster : Cluster) (pill : Pill) : ℚ :=
  let c := cluster.center.features
  let p := pill.features
  let hDiff0 := |p.hue - c.hue|
  let hDiff := if 180 < hDiff0 then 360 - hDiff0 else hDiff0
  let hDist := hDiff / 180
  let sDist := |p.saturation - c.saturation| / 100
  let vDist := |p.value - c.value| / 100
  let isGrayscale := p.saturation < 15 ∨ c.saturation < 15
  let wHue : ℚ := if isGrayscale then 5 / 100 else 35 / 100
  let wSat : ℚ := 25 / 100
  let wVal : ℚ := 5 / 100
  let wCirc : ℚ := 20 / 100
  let wSize : ℚ := 15 / 100
  (hDist * wHue + sDist * wSat + vDist * wVal +
      |pill.features.circularity - c.circularity| * wCirc +
      relDiff pill.area cluster.center.area * wSize) /
    (wHue + wSat + wVal + wCirc + wSize)

/-- The best-cluster scan of `clusterPills` for one pill: the fold over the
cluster list carrying `(bestClusterIndex, minDistance)`, with `none` playing
`bestClusterIndex === -1` (initial `minDistance = Infinity`, so the first
gate-passing cluster is always taken; a strict `<` keeps the earlier cluster
on ties). -/
def bestMatchAux (pill : Pill) : List Cluster → ℕ → Option (ℕ × ℚ) → Option (ℕ × ℚ)
  | [], _, best => best
  | c :: cs, idx, best =>
    let best' :=
      if gateReject c pill then best
      else
        match best with
        | none => some (idx, weightedDist c pill)
        | some (bi, bd) =>
          if weightedDist c pill < bd then some (idx, weightedDist c pill)
          else some (bi, bd)
    bestMatchAux pill cs (idx + 1) best'

/-- The result of the scan over the whole current cluster list. -/
def bestMatch (clusters : List Cluster) (pill : Pill) : Option (ℕ × ℚ) :=
  bestMatchAux pill clusters 0 none

/-- `clusters[i].members.push(pill)`. -/
def addMemberAt : List Cluster → ℕ → Pill → List Cluster
  | [], _, _ => []
  | c :: cs, 0, p => { c with members := c.members ++ [p] } :: cs
  | c :: cs, n + 1, p => c :: addMemberAt cs n p

/-- The new cluster pushed when no existing cluster is joined: label
`String.fromCharCode(65 + clusters.length)`, palette entry
`clusterColors[clusters.length % clusterColors.length]`, center and sole
member the pill itself. -/
def mkNewCluster (n : ℕ) (p : Pill) : Cluster :=
  { label := Char.ofNat (65 + n)
    center := p
    members := [p]
    colorHex := clusterColorsHex.getD (n % clusterColorsHex.length) ""
    colorScalar := clusterColorsScalar.getD (n % clusterColorsScalar.length) ⟨0, 0, 0, 0⟩ }

/-- `DISTANCE_THRESHOLD`. -/
def distanceThreshold : ℚ := 14 / 100

/-- One iteration of the `pills.forEach` assignment loop:
`if (bestClusterIndex !== -1 && minDistance < DISTANCE_THRESHOLD)` join,
else push a new cluster. -/
def clusterStep (clusters : List Cluster) (pill : Pill) : List Cluster :=
  match bestMatch clusters pill with
  | some (i, d) =>
    if d < distanceThreshold then addMemberAt clusters i pill
    else clusters ++ [mkNewCluster clusters.length pill]
  | none => clusters ++ [mkNewCluster clusters.length pill]

/-- The whole assignment loop, starting from the empty cluster list. -/
def buildClusters (pills : List Pill) : List Cluster :=
  pills.foldl clusterStep []

/-- The final per-member relabelling
(`p.clusterLabel = c.label; p.clusterColor = c.colorHex;
p.contourColor = c.colorScalar`). -/
def relabel (c : Cluster) (p : Pill) : Pill :=
  { p with
    clusterLabel := c.label.toString
    clusterColor := c.colorHex
    contourColor := c.colorScalar }

/-- `clusterPills`: the empty-input early return, the assignment loop, then
the final pass pushing one `ClusterStat` per cluster and every member (with
its assignment fields set) into `finalPills`, in cluster order. -/
def clusterPills (pills : List Pill) : List Pill × List ClusterStat :=
  if pills.isEmpty then ([], [])
  else
    let clusters := buildClusters pills
    (clusters.flatMap (fun c => c.members.map (relabel c)),
     clusters.map (fun c =>
       { label := "Group " ++ c.label.toString
         count := c.members.length
         color := c.colorHex }))

/-! ### Duplicate merger (variant 2, "Step 7: Merge Logic") -/

/-- `MERGE_THRESHOLD`. -/
def mergeThreshold : ℚ := 30

/-- The merger's proximity test.  The JS computes
`Math.sqrt(dx² + dy²) < 30`; both sides being nonnegative this is exactly
`dx² + dy² < 900`, which is how it is rendered here (no square root on
`ℚ`). -/
def closePills (p q : PillB) : Prop :=
  (p.x - q.x) ^ 2 + (p.y - q.y) ^ 2 < mergeThreshold ^ 2

instance (p q : PillB) : Decidable (closePills p q) := by
  unfold closePills
  infer_instance

/-- Stable insertion into a list sorted by descending radius: the inserted
pill skips past the pills of strictly greater radius and stops in front of
the first pill whose radius is not greater — in particular in front of an
equal-radius pill, which (the insert coming from the left in `sortByRadius`)
keeps the original relative order of ties.  Together with `sortByRadius`
below this models the stable JS `Array.prototype.sort` under the comparator
`(a, b) => b.radius - a.radius`. -/
def insertByRadius (p : PillB) : List PillB → List PillB
  | [] => [p]
  | q :: qs => if p.radius < q.radius then q :: insertByRadius p qs else p :: q :: qs

/-- `detectedPills.sort((a, b) => b.radius - a.radius)`: stable sort by
descending radius. -/
def sortByRadius (l : List PillB) : List PillB :=
  l.foldr insertByRadius []

/-- The later pills the inner loop absorbs into `p`: those within the
threshold of `p`'s original position. -/
def nearPills (p : PillB) (rest : List PillB) : List PillB :=
  rest.filter (fun q => decide (closePills p q))

/-- The later pills the inner loop leaves for the next outer iterations. -/
def farPills (p : PillB) (rest : List PillB) : List PillB :=
  rest.filter (fun q => ! decide (closePills p q))

/-- The survivor after the inner loop:
`current.x = totalX / count; current.y = totalY / count` where the totals
start from `current`'s own position and accumulate every absorbed pill's. -/
def mergedPill (p : PillB) (near : List PillB) : PillB :=
  { p with
    x := (p.x + (near.map PillB.x).sum) / (1 + near.length)
    y := (p.y + (near.map PillB.y).sum) / (1 + near.length) }

/-- The merger's scan once the list is sorted: for the front pill, absorb
every later not-yet-absorbed pill within the threshold of the front pill's
*original* position (the JS reads `current.x/current.y` before overwriting
them after the inner loop), set the survivor's position to the average of
the absorbed positions and its own, and recurse on the pills left over.
The JS inner loop with its `processedIndices` set visits exactly the later
pills not yet absorbed, in order, which is the `filter` in `nearPills` /
`farPills`. -/
def mergeLoop : List PillB → List PillB
  | [] => []
  | p :: rest => mergedPill p (nearPills p rest) :: mergeLoop (farPills p rest)
termination_by l => l.length
decreasing_by
  simp only [List.length_cons]
  exact Nat.lt_succ_of_le (List.length_filter_le _ _)

/-- The whole "Step 7: Merge Logic" block. -/
def mergeDuplicates (pills : List PillB) : List PillB :=
  mergeLoop (sortByRadius pills)

/-! ### Concrete instances used by witnesses -/

/-- A concrete `MathPrims` instance for witnesses; the verified properties
hold for every instance. -/
def P0 : MathPrims :=
  { piQ := 314159 / 100000
    sqrtQ := fun _ => 0
    log10Q := fun _ => 0 }

/-- A region whose eroded core keeps more than 10 pixels. -/
def regBig : Region :=
  { label := 2
    area := 300
    perimeter := 80
    m00 := 1
    m10 := 0
    m01 := 0
    mu20 := 0
    mu02 := 0
    convexArea := 0
    erodedCount := 20
    meanEroded := ⟨10, 20, 30⟩
    meanOrig := ⟨40, 50, 60⟩ }

/-- A region whose eroded core keeps at most 10 pixels. -/
def regSmallCore : Region :=
  { regBig with erodedCount := 5 }

/-- A region below the minimum plausible area (the spec's 50 px² scenario). -/
def regTiny : Region :=
  { regBig with area := 50, label := 3 }

/-- A degenerate region: plausible area but contour perimeter exactly 0. -/
def regPerim0 : Region :=
  { regBig with perimeter := 0, label := 4 }

/-- A concrete detected pill for clustering witnesses (hue 0, far from
grayscale, circular). -/
def pillCluster0 : Pill :=
  { id := 1, x := 0, y := 0, area := 1000, radius := 0
    color := ⟨200, 0, 0⟩
    features :=
      { hue := 0, saturation := 50, value := 50, perimeter := 112
        convexArea := 1000, huMoment := 0, circularity := 9 / 10 }
    clusterLabel := "?"
    clusterColor := "#FFFFFF"
    contourColor := ⟨255, 255, 255, 255⟩ }

/-- The same pill with hue 72: weighted distance to `pillCluster0` is
`(72/180)·0.35 = 0.14`, exactly the cluster threshold. -/
def pillCluster72 : Pill :=
  { pillCluster0 with
    id := 2
    features := { pillCluster0.features with hue := 72 } }

/-! ### Supporting lemmas: clustering bookkeeping -/

/-- All pills currently held by the cluster list, in cluster order. -/
def allMembers (clusters : List Cluster) : List Pill :=
  clusters.flatMap Cluster.members

theorem bestMatchAux_index_lt (pill : Pill) :
    ∀ (cs : List Cluster) (idx : ℕ) (best : Option (ℕ × ℚ)),
      (∀ j d, best = some (j, d) → j < idx) →
      ∀ i d, bestMatchAux pill cs idx best = some (i, d) → i < idx + cs.length := by
  intro cs
  induction cs with
  | nil =>
    intro idx best hbest i d h
    simpa using hbest i d h
  | cons c cs ih =>
    intro idx best hbest i d h
    simp only [bestMatchAux] at h
    have step : ∀ j d',
        (if gateReject c pill then best
         else
           match best with
           | none => some (idx, weightedDist c pill)
           | some (bi, bd) =>
             if weightedDist c pill < bd then some (idx, weightedDist c pill)
             else some (bi, bd)) = some (j, d') → j < idx + 1 := by
      intro j d' hj
      split at hj
      · exact Nat.lt_succ_of_lt (hbest j d' hj)
      · split at hj
        · injection hj with hj1
          injection hj1 with hja hjb
          omega
        · rename_i hole bfst bsnd
          split at hj
          · injection hj with hj1
            injection hj1 with hja hjb
            omega
          · injection hj with hj1
            injection hj1 with hja hjb
            have := hbest bfst bsnd rfl
            omega
    have := ih (idx + 1) _ step i d h
    simpa [Nat.add_assoc, Nat.add_comm 1 cs.length] using this

theorem bestMatch_index_lt {clusters : List Cluster} {pill : Pill} {i : ℕ} {d : ℚ}
    (h : bestMatch clusters pill = some (i, d)) : i < clusters.length := by
  have := bestMatchAux_index_lt pill clusters 0 none (by intro j d' hj; cases hj) i d h
  simpa using this

theorem allMembers_addMemberAt :
    ∀ (cs : List Cluster) (i : ℕ) (p : Pill), i < cs.length →
      (allMembers (addMemberAt cs i p) : Multiset Pill) =
        {p} + (allMembers cs : Multiset Pill) := by
  intro cs
  induction cs with
  | nil =>
    intro i p h
    simp at h
  | cons c cs ih =>
    intro i p h
    cases i with
    | zero =>
      simp only [addMemberAt, allMembers, List.flatMap_cons]
      rw [← Multiset.coe_add, ← Multiset.coe_add, ← Multiset.coe_add,
        ← Multiset.coe_singleton p]
      abel
    | succ n =>
      simp only [addMemberAt, allMembers, List.flatMap_cons]
      rw [← Multiset.coe_add, ← Multiset.coe_add]
      have hn : n < cs.length := by
        simp only [List.length_cons] at h
        omega
      have hrec := ih n p hn
      simp only [allMembers] at hrec
      rw [hrec]
      abel

theorem allMembers_clusterStep (clusters : List Cluster) (pill : Pill) :
    (allMembers (clusterStep clusters pill) : Multiset Pill) =
      {pill} + (allMembers clusters : Multiset Pill) := by
  unfold clusterStep
  have hnew : (allMembers (clusters ++ [mkNewCluster clusters.length pill]) : Multiset Pill) =
      {pill} + (allMembers clusters : Multiset Pill) := by
    simp only [allMembers, List.flatMap_append, List.flatMap_cons, List.flatMap_nil,
      mkNewCluster, List.append_nil]
    rw [← Multiset.coe_add, ← Multiset.coe_singleton pill]
    abel
  split
  · rename_i i d heq
    split
    · exact allMembers_addMemberAt clusters i pill (bestMatch_index_lt heq)
    · exact hnew
  · exact hnew

theorem allMembers_buildClusters (pills : List Pill) :
    (allMembers (buildClusters pills) : Multiset Pill) = (pills : Multiset Pill) := by
  suffices h : ∀ (init : List Cluster),
      (allMembers (pills.foldl clusterStep init) : Multiset Pill) =
        (allMembers init : Multiset Pill) + (pills : Multiset Pill) by
    have := h []
    simpa [allMembers, buildClusters] using this
  induction pills with
  | nil =>
    intro init
    simp
  | cons p ps ih =>
    intro init
    simp only [List.foldl_cons]
    rw [ih (clusterStep init p), allMembers_clusterStep]
    have hsplit : ((p :: ps : List Pill) : Multiset Pill) = {p} + (ps : Multiset Pill) := by
      rw [← Multiset.coe_singleton p]
      exact (Multiset.coe_add [p] ps).symm
    rw [hsplit]
    abel

/-- The output pill list of `clusterPills`, seen through `Pill.core`, is the
input list up to permutation (and the relabelling touches no core field). -/
theorem clusteredPills_core_perm (pills : List Pill) :
    ((clusterPills pills).1.map Pill.core : Multiset PillCore) =
      (pills.map Pill.core : Multiset PillCore) := by
  unfold clusterPills
  split
  · rename_i hemp
    rw [List.isEmpty_iff] at hemp
    subst hemp
    rfl
  · have hcore : ∀ c : Cluster, Pill.core ∘ relabel c = Pill.core := by
      intro c
      funext p
      rfl
    have hlist : ((buildClusters pills).flatMap (fun c => c.members.map (relabel c))).map Pill.core
        = (allMembers (buildClusters pills)).map Pill.core := by
      simp only [allMembers, List.map_flatMap, List.map_map, hcore]
    calc ((buildClusters pills).flatMap (fun c => c.members.map (relabel c)) |>.map Pill.core : Multiset PillCore)
        = ((allMembers (buildClusters pills)).map Pill.core : Multiset PillCore) := by
          rw [hlist]
      _ = Multiset.map Pill.core (allMembers (buildClusters pills) : Multiset Pill) := by
          rw [Multiset.map_coe]
      _ = Multiset.map Pill.core (pills : Multiset Pill) := by
          rw [allMembers_buildClusters]
      _ = (pills.map Pill.core : Multiset PillCore) := by
          rw [Multiset.map_coe]

/-- Membership transfer through `clusterPills`: every output pill is, core
for core, one of the input pills. -/
theorem mem_clusteredPills_core {pills : List Pill} {p : Pill}
    (h : p ∈ (clusterPills pills).1) : ∃ q ∈ pills, q.core = p.core := by
  have hm : p.core ∈ ((clusterPills pills).1.map Pill.core : Multiset PillCore) := by
    rw [Multiset.mem_coe]
    exact List.mem_map_of_mem Pill.core h
  rw [clusteredPills_core_perm] at hm
  rw [Multiset.mem_coe, List.mem_map] at hm
  obtain ⟨q, hq, hqe⟩ := hm
  exact ⟨q, hq, hqe⟩

/-! ### Supporting lemmas: merger bookkeeping -/

/-- Descending-radius order, the comparator `(a, b) => b.radius - a.radius`
read as a relation. -/
def radiusGE (a b : PillB) : Prop := b.radius ≤ a.radius

theorem insertByRadius_perm (p : PillB) :
    ∀ l : List PillB, List.Perm (insertByRadius p l) (p :: l) := by
  intro l
  induction l with
  | nil => exact List.Perm.refl _
  | cons q qs ih =>
    unfold insertByRadius
    split
    · exact List.Perm.trans (List.Perm.cons q ih) (List.Perm.swap p q qs)
    · exact List.Perm.refl _

theorem sortByRadius_perm (l : List PillB) : List.Perm (sortByRadius l) l := by
  induction l with
  | nil => exact List.Perm.refl _
  | cons p ps ih =>
    exact List.Perm.trans (insertByRadius_perm p _) (List.Perm.cons p ih)

theorem insertByRadius_pairwise {p : PillB} {l : List PillB}
    (h : l.Pairwise radiusGE) : (insertByRadius p l).Pairwise radiusGE := by
  induction l with
  | nil => simp [insertByRadius, radiusGE]
  | cons q qs ih =>
    unfold insertByRadius
    split
    · rename_i hlt
      rw [List.pairwise_cons] at h
      obtain ⟨hq, hqs⟩ := h
      rw [List.pairwise_cons]
      refine ⟨?_, ih hqs⟩
      intro a ha
      have ha' : a ∈ p :: qs := (insertByRadius_perm p qs).mem_iff.mp ha
      rcases List.mem_cons.mp ha' with rfl | ha''
      · exact le_of_lt hlt
      · exact hq a ha''
    · rename_i hge
      rw [List.pairwise_cons]
      refine ⟨?_, h⟩
      intro a ha
      rcases List.mem_cons.mp ha with rfl | ha'
      · exact le_of_not_lt hge
      · exact le_trans ((List.pairwise_cons.mp h).1 a ha') (le_of_not_lt hge)

theorem sortByRadius_pairwise (l : List PillB) : (sortByRadius l).Pairwise radiusGE := by
  induction l with
  | nil => simp [sortByRadius]
  | cons p ps ih => exact insertByRadius_pairwise ih

theorem sortByRadius_of_pairwise :
    ∀ {l : List PillB}, l.Pairwise radiusGE → sortByRadius l = l := by
  intro l
  induction l with
  | nil => intro _; rfl
  | cons p ps ih =>
    intro h
    rw [List.pairwise_cons] at h
    show insertByRadius p (sortByRadius ps) = p :: ps
    rw [ih h.2]
    cases ps with
    | nil => rfl
    | cons q qs =>
      unfold insertByRadius
      rw [if_neg]
      exact not_lt_of_le (h.1 q (List.mem_cons_self q qs))

theorem mergeLoop_mem :
    ∀ (l : List PillB), ∀ q ∈ mergeLoop l, ∃ p ∈ l, q = { p with x := q.x, y := q.y } := by
  intro l
  induction l using mergeLoop.induct with
  | case1 =>
    intro q hq
    simp [mergeLoop] at hq
  | case2 p rest ih =>
    intro q hq
    rw [mergeLoop] at hq
    rcases List.mem_cons.mp hq with rfl | hq'
    · refine ⟨p, List.mem_cons_self p rest, ?_⟩
      rfl
    · obtain ⟨r, hr, hre⟩ := ih q hq'
      exact ⟨r, List.mem_cons_of_mem p (List.mem_of_mem_filter hr), hre⟩

/-- Membership transfer through the whole merger: every output pill is an
input pill with only its position fields rewritten. -/
theorem mem_mergeDuplicates {pills : List PillB} {q : PillB}
    (h : q ∈ mergeDuplicates pills) : ∃ p ∈ pills, q = { p with x := q.x, y := q.y } := by
  obtain ⟨p, hp, hpe⟩ := mergeLoop_mem (sortByRadius pills) q h
  exact ⟨p, (sortByRadius_perm pills).mem_iff.mp hp, hpe⟩

theorem mergeLoop_pairwise :
    ∀ {l : List PillB}, l.Pairwise radiusGE → (mergeLoop l).Pairwise radiusGE := by
  intro l
  induction l using mergeLoop.induct with
  | case1 =>
    intro _
    simp [mergeLoop]
  | case2 p rest ih =>
    intro h
    rw [List.pairwise_cons] at h
    rw [mergeLoop, List.pairwise_cons]
    have hfar : (farPills p rest).Pairwise radiusGE := h.2.sublist (List.filter_sublist rest)
    refine ⟨?_, ih hfar⟩
    intro a ha
    obtain ⟨r, hr, hre⟩ := mergeLoop_mem _ a ha
    have hrrest : r ∈ rest := List.mem_of_mem_filter hr
    have : a.radius = r.radius := by
      rw [hre]
    show a.radius ≤ (mergedPill p (nearPills p rest)).radius
    rw [this]
    exact h.1 r hrrest

/-- A merger pass over a list whose pills are pairwise at least the merge
threshold apart changes nothing. -/
theorem mergeLoop_of_far :
    ∀ {l : List PillB}, l.Pairwise (fun p q => ¬ closePills p q) → mergeLoop l = l := by
  intro l
  induction l using mergeLoop.induct with
  | case1 =>
    intro _
    simp [mergeLoop]
  | case2 p rest ih =>
    intro h
    rw [List.pairwise_cons] at h
    have hnear : nearPills p rest = [] := by
      rw [nearPills, List.filter_eq_nil_iff]
      intro q hq
      simpa using h.1 q hq
    have hfar : farPills p rest = rest := by
      rw [farPills, List.filter_eq_self]
      intro q hq
      simpa using h.1 q hq
    have ihrest : mergeLoop rest = rest := by
      have := ih (by rw [hfar]; exact h.2)
      rwa [hfar] at this
    have hmerged : mergedPill p [] = p := by
      simp [mergedPill]
    rw [mergeLoop, hnear, hfar, ihrest, hmerged]

/-! ### C3 — DuplicateMerger idempotence -/

/-- Counterexample input for C3: three pills on a line.  The largest pill
(radius 10, x = 0) absorbs the smallest (x = 28, distance 28 < 30) and moves
to their average x = 14; the middle pill (x = 42) was 42 away from the
original position but is only 28 away from the moved survivor, so a second
pass merges again. -/
def pillMergeA : PillB :=
  { id := 1, x := 0, y := 0, area := 900, radius := 10
    color := ⟨0, 0, 0⟩, colorLabel := "白色", status := PillStatus.normal }

/-- Second counterexample pill: absorbed by `pillMergeA` on the first pass. -/
def pillMergeB : PillB :=
  { id := 2, x := 28, y := 0, area := 300, radius := 5
    color := ⟨0, 0, 0⟩, colorLabel := "白色", status := PillStatus.normal }

/-- Third counterexample pill: survives pass one, absorbed in pass two. -/
def pillMergeC : PillB :=
  { id := 3, x := 42, y := 0, area := 500, radius := 7
    color := ⟨0, 0, 0⟩, colorLabel := "白色", status := PillStatus.normal }

/-- C3 counterexample: applying the merger a second time to its own output
does *not* always yield the same output — on this concrete input the first
pass leaves two pills and the second pass merges them into one, because
averaging moved a survivor inside the 30 px threshold of another. -/
theorem mergeDuplicates_not_idempotent :
    mergeDuplicates (mergeDuplicates [pillMergeA, pillMergeB, pillMergeC]) ≠
      mergeDuplicates [pillMergeA, pillMergeB, pillMergeC] := by
  have h1 : mergeDuplicates [pillMergeA, pillMergeB, pillMergeC] =
      [{ pillMergeA with x := 14 }, { pillMergeC with x := 42 }] := by
    norm_num [mergeDuplicates, sortByRadius, insertByRadius, mergeLoop, nearPills,
      farPills, mergedPill, closePills, mergeThreshold, pillMergeA, pillMergeB, pillMergeC]
  have h2 : mergeDuplicates [{ pillMergeA with x := 14 }, { pillMergeC with x := 42 }] =
      [{ pillMergeA with x := 28 }] := by
    norm_num [mergeDuplicates, sortByRadius, insertByRadius, mergeLoop, nearPills,
      farPills, mergedPill, closePills, mergeThreshold, pillMergeA, pillMergeC]
  rw [h1, h2]
  intro hcontra
  have := congrArg List.length hcontra
  simp at this

/-- C3 amended: a second merger pass is the identity exactly under the
condition the averaging step can violate — when the first pass's surviving
pills are still pairwise at least the 30 px merge threshold apart.  (The
merger re-sorts by descending radius, which leaves its own — already
sorted — output unchanged, and with no pair within the threshold no
absorption and no position change occurs.) -/
theorem mergeDuplicates_idempotent_of_separated (pills : List PillB)
    (h : (mergeDuplicates pills).Pairwise (fun p q => ¬ closePills p q)) :
    mergeDuplicates (mergeDuplicates pills) = mergeDuplicates pills := by
  have hsorted : (mergeDuplicates pills).Pairwise radiusGE :=
    mergeLoop_pairwise (sortByRadius_pairwise pills)
  show mergeLoop (sortByRadius (mergeDuplicates pills)) = mergeDuplicates pills
  rw [sortByRadius_of_pairwise hsorted, mergeLoop_of_far h]

/-- C3 amended witness: two pills 100 px apart; the merger keeps both and a
second pass is the identity. -/
theorem mergeDuplicates_idempotent_of_separated_witness :
    mergeDuplicates (mergeDuplicates [pillMergeA, { pillMergeC with x := 100 }]) =
      mergeDuplicates [pillMergeA, { pillMergeC with x := 100 }] := by
  apply mergeDuplicates_idempotent_of_separated
  have hcalc : mergeDuplicates [pillMergeA, { pillMergeC with x := 100 }] =
      [{ pillMergeA with x := 0 }, { pillMergeC with x := 100 }] := by
    norm_num [mergeDuplicates, sortByRadius, insertByRadius, mergeLoop, nearPills,
      farPills, mergedPill, closePills, mergeThreshold, pillMergeA, pillMergeC]
  rw [hcalc]
  norm_num [List.pairwise_cons, closePills, mergeThreshold, pillMergeA, pillMergeC]

theorem addMemberAt_length :
    ∀ (cs : List Cluster) (i : ℕ) (p : Pill), (addMemberAt cs i p).length = cs.length := by
  intro cs
  induction cs with
  | nil =>
    intro i p
    rfl
  | cons c cs ih =>
    intro i p
    cases i with
    | zero => rfl
    | succ n =>
      simp only [addMemberAt, List.length_cons, ih]

theorem addMemberAt_mem :
    ∀ (cs : List Cluster) (i : ℕ) (p : Pill) (c : Cluster), c ∈ addMemberAt cs i p →
      c ∈ cs ∨ ∃ c' ∈ cs, c = { c' with members := c'.members ++ [p] } := by
  intro cs
  induction cs with
  | nil =>
    intro i p c h
    cases h
  | cons c0 cs ih =>
    intro i p c h
    cases i with
    | zero =>
      rcases List.mem_cons.mp h with rfl | h'
      · exact Or.inr ⟨c0, List.mem_cons_self c0 cs, rfl⟩
      · exact Or.inl (List.mem_cons_of_mem c0 h')
    | succ n =>
      rcases List.mem_cons.mp h with rfl | h'
      · exact Or.inl (List.mem_cons_self c cs)
      · rcases ih n p c h' with h'' | ⟨c', hc', he⟩
        · exact Or.inl (List.mem_cons_of_mem c0 h'')
        · exact Or.inr ⟨c', List.mem_cons_of_mem c0 hc', he⟩

/-! ### C4 — the clustering threshold boundary is pinned to strict `<` -/

/-- C4: one assignment-loop iteration joins an existing cluster (keeping the
cluster count) exactly when the scan found a best gate-passing cluster at
weighted distance strictly below `DISTANCE_THRESHOLD = 0.14`; in particular
when the best distance *equals* the threshold the pill deterministically
starts a new cluster (appended with the next label and palette color). -/
theorem clusterStep_threshold_boundary (clusters : List Cluster) (pill : Pill) :
    ((clusterStep clusters pill).length = clusters.length ↔
      ∃ i d, bestMatch clusters pill = some (i, d) ∧ d < distanceThreshold) ∧
    (∀ i, bestMatch clusters pill = some (i, distanceThreshold) →
      clusterStep clusters pill = clusters ++ [mkNewCluster clusters.length pill]) := by
  constructor
  · constructor
    · intro hlen
      unfold clusterStep at hlen
      cases hbm : bestMatch clusters pill with
      | none =>
        rw [hbm] at hlen
        simp at hlen
      | some id =>
        obtain ⟨i, d⟩ := id
        simp only [hbm] at hlen
        by_cases hd : d < distanceThreshold
        · exact ⟨i, d, rfl, hd⟩
        · rw [if_neg hd] at hlen
          simp at hlen
    · rintro ⟨i, d, hbm, hd⟩
      unfold clusterStep
      simp only [hbm]
      rw [if_pos hd, addMemberAt_length]
  · intro i hbm
    unfold clusterStep
    simp only [hbm]
    rw [if_neg (lt_irrefl _)]

/-- C4 witness: a pill whose weighted distance to the only existing cluster
is exactly `0.14` (hue gap 72° · weight 0.35, all other features equal)
starts a new cluster rather than joining. -/
theorem clusterStep_threshold_boundary_witness :
    bestMatch [mkNewCluster 0 pillCluster0] pillCluster72 = some (0, distanceThreshold) ∧
    clusterStep [mkNewCluster 0 pillCluster0] pillCluster72 =
      [mkNewCluster 0 pillCluster0] ++ [mkNewCluster 1 pillCluster72] := by
  have hbm : bestMatch [mkNewCluster 0 pillCluster0] pillCluster72 =
      some (0, distanceThreshold) := by
    unfold bestMatch bestMatchAux
    rw [if_neg]
    · norm_num [weightedDist, relDiff, mkNewCluster, distanceThreshold,
        pillCluster0, pillCluster72, abs]
      rfl
    · norm_num [gateReject, relDiff, mkNewCluster, pillCluster0, pillCluster72, abs]
  have happ := (clusterStep_threshold_boundary [mkNewCluster 0 pillCluster0]
    pillCluster72).2 0 hbm
  refine ⟨hbm, ?_⟩
  rw [happ]
  rfl

/-! ### C8 — a cluster's representative is its first member, never updated -/

/-- C8: through every iteration of the assignment loop, each cluster's
`center` (the representative feature source) is exactly its first admitted
member: joins only append to `members` and never touch `center`, and a new
cluster starts with `center = members[0] = pill`.  Stated as preservation by
one loop iteration and as the resulting invariant of the whole loop. -/
theorem cluster_center_is_first_member :
    (∀ (clusters : List Cluster) (pill : Pill),
      (∀ c ∈ clusters, c.members.head? = some c.center) →
      ∀ c ∈ clusterStep clusters pill, c.members.head? = some c.center) ∧
    (∀ pills : List Pill, ∀ c ∈ buildClusters pills, c.members.head? = some c.center) := by
  have hstep : ∀ (clusters : List Cluster) (pill : Pill),
      (∀ c ∈ clusters, c.members.head? = some c.center) →
      ∀ c ∈ clusterStep clusters pill, c.members.head? = some c.center := by
    intro clusters pill hinv c hc
    unfold clusterStep at hc
    have hnew : c ∈ clusters ++ [mkNewCluster clusters.length pill] →
        c.members.head? = some c.center := by
      intro hmem
      rcases List.mem_append.mp hmem with hmem | hmem
      · exact hinv c hmem
      · rcases List.mem_cons.mp hmem with rfl | habs
        · rfl
        · cases habs
    split at hc
    · rename_i i d heq
      split at hc
      · rcases addMemberAt_mem clusters i pill c hc with hmem | ⟨c', hc', rfl⟩
        · exact hinv c hmem
        · have := hinv c' hc'
          cases hm : c'.members with
          | nil =>
            rw [hm] at this
            cases this
          | cons a t =>
            rw [hm] at this
            simp only [List.head?] at this
            simp [hm, List.head?, this]
      · exact hnew hc
    · exact hnew hc
  refine ⟨hstep, ?_⟩
  intro pills
  suffices h : ∀ (init : List Cluster),
      (∀ c ∈ init, c.members.head? = some c.center) →
      ∀ c ∈ pills.foldl clusterStep init, c.members.head? = some c.center by
    intro c hc
    exact h [] (by intro c' hc'; cases hc') c hc
  induction pills with
  | nil =>
    intro init hinit
    simpa using hinit
  | cons p ps ih =>
    intro init hinit
    simp only [List.foldl_cons]
    exact ih (clusterStep init p) (hstep init p hinit)

/-- C8 witness: on a concrete one-pill input the single created cluster has
its center as its first (and only) member. -/
theorem cluster_center_is_first_member_witness :
    (mkNewCluster 0 pillCluster0).members.head? = some (mkNewCluster 0 pillCluster0).center := by
  have hmem : mkNewCluster 0 pillCluster0 ∈ buildClusters [pillCluster0] := by
    simp [buildClusters, clusterStep, bestMatch, bestMatchAux]
  exact cluster_center_is_first_member.2 [pillCluster0] (mkNewCluster 0 pillCluster0) hmem

/-! ### C2 — zero-perimeter regions and the extraction filters -/

/-- C2 counterexample: in the clustering variant the claim fails — a region
with contour perimeter exactly 0 but plausible area is *not* skipped: it is
pushed with `circularity = 0` and is among the detected objects handed to
`clusterPills`. -/
theorem zero_perimeter_reaches_clustering :
    regPerim0.perimeter = 0 ∧
    (extractV1 P0 [regPerim0]).map (fun p => p.features.circularity) = [0] ∧
    ((clusterPills (extractV1 P0 [regPerim0])).1.map
      (fun p => p.features.circularity)) = [0] := by
  have hstep : ∀ p, extractStepV1 P0 regPerim0 = some p → p.features.circularity = 0 := by
    intro p h
    unfold extractStepV1 at h
    rw [if_pos (by norm_num [regPerim0, regBig])] at h
    injection h with h
    rw [← h]
    norm_num [regPerim0, regBig]
  have hv : ∃ p, extractV1 P0 [regPerim0] = [p] ∧ p.features.circularity = 0 := by
    have : ∃ p, extractStepV1 P0 regPerim0 = some p := by
      unfold extractStepV1
      norm_num [regPerim0, regBig]
    obtain ⟨p, hp⟩ := this
    refine ⟨p, ?_, hstep p hp⟩
    simp [extractV1, hp]
  obtain ⟨p, hp1, hp0⟩ := hv
  refine ⟨rfl, by rw [hp1]; simp [hp0], ?_⟩
  rw [hp1]
  have hbm : bestMatch [] p = none := rfl
  simp [clusterPills, buildClusters, clusterStep, hbm, mkNewCluster, relabel, hp0]

/-- C2 amended: only the binary variant rejects a zero-perimeter region; the
clustering variant keeps it (when its area passes the plausibility filter)
with `circularity` set to 0, so an object with circularity 0 *can* reach
clustering there.  For every region with positive perimeter, both variants'
accepted objects have strictly positive circularity (`Math.PI > 0`): in the
clustering variant the stored `circularity` feature is positive, and in the
binary variant the transient `4πA/p²` quantity that alone decides the
normal/broken classification is positive and the stored status is exactly
its comparison against the 0.65 threshold. -/
theorem zero_perimeter_rejection_amended (P : MathPrims) (reg : Region) :
    (reg.perimeter = 0 → extractStepV2 P reg = none) ∧
    (∀ p, extractStepV1 P reg = some p → reg.perimeter = 0 →
      p.features.circularity = 0) ∧
    (∀ p, 0 < P.piQ → extractStepV1 P reg = some p → 0 < reg.perimeter →
      0 < p.features.circularity) ∧
    (∀ p, 0 < P.piQ → extractStepV2 P reg = some p →
      0 < 4 * P.piQ * reg.area / (reg.perimeter * reg.perimeter) ∧
      p.status = (if 65 / 100 < 4 * P.piQ * reg.area / (reg.perimeter * reg.perimeter)
                  then PillStatus.normal else PillStatus.broken)) := by
  refine ⟨?_, ?_, ?_, ?_⟩
  · intro h
    unfold extractStepV2
    rw [if_neg]
    rw [h]
    intro hcontra
    exact lt_irrefl 0 hcontra.2.2
  · intro p hp h
    obtain ⟨-, -, -, hcirc, -, -, -⟩ := extractStepV1_some_spec hp
    rw [hcirc, if_neg]
    rw [h]
    exact lt_irrefl 0
  · intro p hpi hp hperim
    obtain ⟨-, -, -, hcirc, -, hlo, -⟩ := extractStepV1_some_spec hp
    rw [hcirc, if_pos hperim]
    have harea' : (0 : ℚ) < reg.area := lt_trans (by norm_num) hlo
    have hnum : (0 : ℚ) < 4 * P.piQ * reg.area := by positivity
    have hden : (0 : ℚ) < reg.perimeter * reg.perimeter := by positivity
    exact div_pos hnum hden
  · intro p hpi hp
    obtain ⟨-, -, -, -, hlo, -, hperim, hstatus⟩ := extractStepV2_some_spec hp
    refine ⟨?_, hstatus⟩
    have harea' : (0 : ℚ) < reg.area := lt_trans (by norm_num) hlo
    have hnum : (0 : ℚ) < 4 * P.piQ * reg.area := by positivity
    have hden : (0 : ℚ) < reg.perimeter * reg.perimeter := by positivity
    exact div_pos hnum hden

/-- C2 amended witness: the zero-perimeter region `regPerim0` is rejected by
the binary variant, kept with circularity 0 by the clustering variant, and
the positive-perimeter accepted region `regBig` (area 300, perimeter 80)
gets strictly positive circularity in both variants — in the binary variant
its classification quantity is positive (≈ 0.589) and its status is the
threshold comparison's result, `broken`. -/
theorem zero_perimeter_rejection_amended_witness :
    extractStepV2 P0 regPerim0 = none ∧
    (∃ p, extractStepV1 P0 regPerim0 = some p ∧ p.features.circularity = 0) ∧
    (∃ q, extractStepV1 P0 regBig = some q ∧ 0 < q.features.circularity) ∧
    (∃ r, extractStepV2 P0 regBig = some r ∧
      0 < 4 * P0.piQ * regBig.area / (regBig.perimeter * regBig.perimeter) ∧
      r.status = PillStatus.broken) := by
  refine ⟨(zero_perimeter_rejection_amended P0 regPerim0).1 rfl, ?_, ?_, ?_⟩
  · have : ∃ p, extractStepV1 P0 regPerim0 = some p := by
      unfold extractStepV1
      norm_num [regPerim0, regBig]
    obtain ⟨p, hp⟩ := this
    exact ⟨p, hp, (zero_perimeter_rejection_amended P0 regPerim0).2.1 p hp rfl⟩
  · have : ∃ q, extractStepV1 P0 regBig = some q := by
      unfold extractStepV1
      norm_num [regBig]
    obtain ⟨q, hq⟩ := this
    refine ⟨q, hq, (zero_perimeter_rejection_amended P0 regBig).2.2.1 q ?_ hq ?_⟩
    · norm_num [P0]
    · norm_num [regBig]
  · have : ∃ r, extractStepV2 P0 regBig = some r := by
      unfold extractStepV2
      norm_num [regBig]
    obtain ⟨r, hr⟩ := this
    have hv2 := (zero_perimeter_rejection_amended P0 regBig).2.2.2 r
      (by norm_num [P0]) hr
    refine ⟨r, hr, hv2.1, ?_⟩
    rw [hv2.2, if_neg]
    norm_num [P0, regBig]

/-! ### C1 — failure paths of `processFrame` return `{}` and never throw -/

/-- C1: for every invocation of `processFrame`, if the engine is unavailable
(`!cv || !cv.Mat`), the canvas yields no 2d context, or any exception is
raised inside the pipeline body, the call returns the empty partial result
`{}` (here `none`) — and, `processFrameGuard` being a total function into
results rather than exceptions, nothing propagates past the boundary. -/
theorem processFrame_failure_yields_empty {α : Type} (cvReady : Bool)
    (ctx : Option Unit) (body : Except Unit α)
    (h : cvReady = false ∨ ctx = none ∨ ∃ e, body = Except.error e) :
    processFrameGuard cvReady ctx body = none := by
  unfold processFrameGuard
  rcases h with h | h | ⟨e, h⟩
  · simp [h]
  · subst h
    simp
  · subst h
    cases ctx <;> simp

/-- C1 witness: each of the three failure modes at a concrete invocation. -/
theorem processFrame_failure_yields_empty_witness :
    processFrameGuard (α := ℕ) false (some ()) (Except.ok 7) = none ∧
    processFrameGuard (α := ℕ) true none (Except.ok 7) = none ∧
    processFrameGuard (α := ℕ) true (some ()) (Except.error ()) = none :=
  ⟨processFrame_failure_yields_empty false (some ()) (Except.ok 7) (Or.inl rfl),
   processFrame_failure_yields_empty true none (Except.ok 7) (Or.inr (Or.inl rfl)),
   processFrame_failure_yields_empty true (some ()) (Except.error ())
     (Or.inr (Or.inr ⟨(), rfl⟩))⟩

/-! ### C9 — eroded-core color sampling with small-region fallback -/

/-- C9: in both pipeline variants, an accepted region's mean color is taken
under the eroded core mask exactly when the eroded mask keeps strictly more
than 10 non-zero pixels, and under the unedited region mask otherwise — so a
small accepted region still gets a color sample. -/
theorem extract_color_mask_fallback (P : MathPrims) (reg : Region) :
    (∀ pill, extractStepV1 P reg = some pill →
      (10 < reg.erodedCount → pill.color = reg.meanEroded) ∧
      (reg.erodedCount ≤ 10 → pill.color = reg.meanOrig)) ∧
    (∀ pill, extractStepV2 P reg = some pill →
      (10 < reg.erodedCount → pill.color = reg.meanEroded) ∧
      (reg.erodedCount ≤ 10 → pill.color = reg.meanOrig)) := by
  constructor
  · intro pill h
    unfold extractStepV1 at h
    split at h
    · injection h with h
      subst h
      constructor
      · intro hc
        simp [if_pos hc]
      · intro hc
        have : ¬ 10 < reg.erodedCount := by omega
        simp [if_neg this]
    · cases h
  · intro pill h
    unfold extractStepV2 at h
    split at h
    · injection h with h
      subst h
      constructor
      · intro hc
        simp [if_pos hc]
      · intro hc
        have : ¬ 10 < reg.erodedCount := by omega
        simp [if_neg this]
    · cases h

/-- C9 witness: a concrete accepted region with a live eroded core samples
the eroded mean; the same region with a collapsed core (5 pixels) falls back
to the unedited mean. -/
theorem extract_color_mask_fallback_witness :
    ∃ p q : Pill, extractStepV1 P0 regBig = some p ∧ p.color = ⟨10, 20, 30⟩ ∧
      extractStepV1 P0 regSmallCore = some q ∧ q.color = ⟨40, 50, 60⟩ := by
  have h1 : ∃ p, extractStepV1 P0 regBig = some p := by
    unfold extractStepV1
    norm_num [regBig]
  have h2 : ∃ q, extractStepV1 P0 regSmallCore = some q := by
    unfold extractStepV1
    norm_num [regSmallCore, regBig]
  obtain ⟨p, hp⟩ := h1
  obtain ⟨q, hq⟩ := h2
  refine ⟨p, q, hp, ?_, hq, ?_⟩
  · exact ((extract_color_mask_fallback P0 regBig).1 p hp).1 (by norm_num [regBig])
  · exact ((extract_color_mask_fallback P0 regSmallCore).1 q hq).2
      (by norm_num [regSmallCore, regBig])

/-! ### C5 — radius is derived from area and never diverges from it -/

/-- C5: in both variants every extracted pill is constructed with
`radius = Math.sqrt(area / Math.PI)` applied to its own area, and both
post-processing stages (the duplicate merger, which rewrites positions only,
and `clusterPills`, which rewrites assignment fields only) preserve the
relation, so it still holds of every pill in the final output. -/
theorem radius_derived_from_area (P : MathPrims) :
    (∀ regions : List Region, ∀ p ∈ extractV1 P regions,
      p.radius = P.sqrtQ (p.area / P.piQ)) ∧
    (∀ regions : List Region, ∀ p ∈ extractV2 P regions,
      p.radius = P.sqrtQ (p.area / P.piQ)) ∧
    (∀ pills : List PillB, (∀ q ∈ pills, q.radius = P.sqrtQ (q.area / P.piQ)) →
      ∀ p ∈ mergeDuplicates pills, p.radius = P.sqrtQ (p.area / P.piQ)) ∧
    (∀ pills : List Pill, (∀ q ∈ pills, q.radius = P.sqrtQ (q.area / P.piQ)) →
      ∀ p ∈ (clusterPills pills).1, p.radius = P.sqrtQ (p.area / P.piQ)) := by
  refine ⟨?_, ?_, ?_, ?_⟩
  · intro regions p hp
    obtain ⟨reg, -, hstep⟩ := List.mem_filterMap.mp hp
    obtain ⟨-, harea, hrad, -, -, -, -⟩ := extractStepV1_some_spec hstep
    rw [hrad, harea]
  · intro regions p hp
    obtain ⟨reg, -, hstep⟩ := List.mem_filterMap.mp hp
    obtain ⟨-, harea, hrad, -, -, -, -, -⟩ := extractStepV2_some_spec hstep
    rw [hrad, harea]
  · intro pills hinv p hp
    obtain ⟨q, hq, he⟩ := mem_mergeDuplicates hp
    have hr : p.radius = q.radius := by rw [he]
    have ha : p.area = q.area := by rw [he]
    rw [hr, ha]
    exact hinv q hq
  · intro pills hinv p hp
    obtain ⟨q, hq, hcore⟩ := mem_clusteredPills_core hp
    have hr : q.radius = p.radius := congrArg PillCore.radius hcore
    have ha : q.area = p.area := congrArg PillCore.area hcore
    rw [← hr, ← ha]
    exact hinv q hq

/-- C5 witness: a concrete accepted region's pill carries
`radius = sqrtQ (area / piQ)`, and a concrete one-pill clustering run
preserves the relation into the final output. -/
theorem radius_derived_from_area_witness :
    (∃ p, extractStepV1 P0 regBig = some p ∧ p.radius = P0.sqrtQ (p.area / P0.piQ)) ∧
    (∀ p ∈ (clusterPills [{ pillCluster0 with radius := 0 }]).1,
      p.radius = P0.sqrtQ (p.area / P0.piQ)) := by
  constructor
  · have : ∃ p, extractStepV1 P0 regBig = some p := by
      unfold extractStepV1
      norm_num [regBig]
    obtain ⟨p, hp⟩ := this
    refine ⟨p, hp, (radius_derived_from_area P0).1 [regBig] p ?_⟩
    exact List.mem_filterMap.mpr ⟨regBig, List.mem_cons_self regBig [], hp⟩
  · apply (radius_derived_from_area P0).2.2.2 [{ pillCluster0 with radius := 0 }]
    intro q hq
    rcases List.mem_cons.mp hq with rfl | h
    · norm_num [P0]
    · cases h

/-! ### C6 — area-implausible regions are excluded from every output -/

/-- C6: a region whose contour area falls outside the plausible range is
rejected by the per-region filter of either variant, and consequently no
object with that region's label appears anywhere downstream — neither in the
clustered output of variant 1 nor in the merged output of variant 2. -/
theorem implausible_area_excluded (P : MathPrims) :
    (∀ reg : Region, ¬ (200 < reg.area ∧ reg.area < 10000) →
      extractStepV1 P reg = none) ∧
    (∀ reg : Region, ¬ (200 < reg.area ∧ reg.area < 8000) →
      extractStepV2 P reg = none) ∧
    (∀ (regions : List Region) (lab : ℤ),
      (∀ reg ∈ regions, reg.label = lab → ¬ (200 < reg.area ∧ reg.area < 10000)) →
      ∀ p ∈ (clusterPills (extractV1 P regions)).1, p.id ≠ lab) ∧
    (∀ (regions : List Region) (lab : ℤ),
      (∀ reg ∈ regions, reg.label = lab → ¬ (200 < reg.area ∧ reg.area < 8000)) →
      ∀ p ∈ mergeDuplicates (extractV2 P regions), p.id ≠ lab) := by
  refine ⟨?_, ?_, ?_, ?_⟩
  · intro reg h
    unfold extractStepV1
    rw [if_neg h]
  · intro reg h
    unfold extractStepV2
    rw [if_neg]
    intro hc
    exact h ⟨hc.1, hc.2.1⟩
  · intro regions lab hreg p hp hid
    obtain ⟨q, hq, hcore⟩ := mem_clusteredPills_core hp
    obtain ⟨reg, hmem, hstep⟩ := List.mem_filterMap.mp hq
    obtain ⟨hqid, -, -, -, -, hlo, hhi⟩ := extractStepV1_some_spec hstep
    have hqp : q.id = p.id := congrArg PillCore.id hcore
    exact hreg reg hmem (by rw [hqid] at hqp; rw [hqp, hid]) ⟨hlo, hhi⟩
  · intro regions lab hreg p hp hid
    obtain ⟨q, hq, he⟩ := mem_mergeDuplicates hp
    obtain ⟨reg, hmem, hstep⟩ := List.mem_filterMap.mp hq
    obtain ⟨hqid, -, -, -, hlo, hhi, -, -⟩ := extractStepV2_some_spec hstep
    have hqp : p.id = q.id := by rw [he]
    exact hreg reg hmem (by rw [← hqid, ← hqp, hid]) ⟨hlo, hhi⟩

/-- C6 witness: the 50 px² region is rejected by both variants' filters. -/
theorem implausible_area_excluded_witness :
    extractStepV1 P0 regTiny = none ∧ extractStepV2 P0 regTiny = none := by
  constructor
  · exact (implausible_area_excluded P0).1 regTiny (by norm_num [regTiny, regBig])
  · exact (implausible_area_excluded P0).2.1 regTiny (by norm_num [regTiny, regBig])

/-! ### C7 — contrast before gamma, and the gamma LUT equals the formula -/

/-- C7: the enhancement first applies the contrast map
(`clamp(round(v·c))`, the `convertTo` step) to every byte and then the gamma
map; the gamma step goes through the 256-entry table `lutTable`, whose entry
at index `i` is exactly the per-value formula `lutEntry` — so mapping every
pixel through the table equals applying the formula per pixel. -/
theorem enhancement_lut_correct (rnd : ℚ → ℤ) (gpow : Fin 256 → ℚ) (c : ℚ)
    (data : List (Fin 256)) :
    enhanceChannels rnd gpow c data =
      data.map (fun v => lutEntry gpow (contrastStep rnd c v)) ∧
    ∀ v : Fin 256, (lutTable gpow).getD v.val 0 = lutEntry gpow v := by
  have hget : ∀ v : Fin 256, (lutTable gpow).getD v.val 0 = lutEntry gpow v := by
    intro v
    have hlen : v.val < (lutTable gpow).length := by
      simp only [lutTable, List.length_map, List.length_finRange]
      exact v.isLt
    rw [List.getD_eq_getElem _ _ hlen]
    simp only [lutTable, List.getElem_map, List.getElem_finRange, Fin.eta]
    rfl
  refine ⟨?_, hget⟩
  unfold enhanceChannels applyGammaCorrection
  rw [List.map_map]
  exact congrArg (fun f => data.map f)
    (funext fun v => hget (contrastStep rnd c v))

/-! ### C10 — clusterPills partitions its input -/

/-- Length of the flattened member lists is the sum of cluster sizes. -/
theorem length_flatMap_members (cs : List Cluster) :
    (cs.flatMap (fun c => c.members.map (relabel c))).length =
      (cs.map (fun c => c.members.length)).sum := by
  induction cs with
  | nil => rfl
  | cons c cs ih =>
    simp only [List.flatMap_cons, List.length_append, List.length_map,
      List.map_cons, List.sum_cons, ih]

/-- C10: `clusterPills` partitions its input — the output pill list is the
input up to permutation and relabelling (each input pill appears exactly
once, core data unchanged), the reported per-cluster counts sum to the
number of input pills, every returned pill carries exactly the label and
color of the cluster holding it, and the empty input returns empty lists. -/
theorem clusterPills_partitions :
    clusterPills [] = ([], []) ∧
    ∀ pills : List Pill,
      ((clusterPills pills).1.map Pill.core : Multiset PillCore) =
        (pills.map Pill.core : Multiset PillCore) ∧
      ((clusterPills pills).2.map ClusterStat.count).sum = pills.length ∧
      ∀ p ∈ (clusterPills pills).1, ∃ c ∈ buildClusters pills,
        p.clusterLabel = c.label.toString ∧ p.clusterColor = c.colorHex ∧
        p.core ∈ c.members.map Pill.core := by
  refine ⟨rfl, ?_⟩
  intro pills
  have hlen : (clusterPills pills).1.length = pills.length := by
    have hc := congrArg Multiset.card (clusteredPills_core_perm pills)
    simpa using hc
  refine ⟨clusteredPills_core_perm pills, ?_, ?_⟩
  · rw [← hlen]
    unfold clusterPills
    split
    · rfl
    · rw [List.map_map, length_flatMap_members]
      rfl
  · intro p hp
    unfold clusterPills at hp
    split at hp
    · cases hp
    · obtain ⟨c, hc, hpm⟩ := List.mem_flatMap.mp hp
      obtain ⟨q, hq, rfl⟩ := List.mem_map.mp hpm
      exact ⟨c, hc, rfl, rfl, List.mem_map.mpr ⟨q, hq, rfl⟩⟩

/-- C10 witness: on a concrete one-pill input, the single output pill's
label and color are those of its (unique) cluster, and its core is among the
cluster's member cores. -/
theorem clusterPills_partitions_witness :
    ∃ c ∈ buildClusters [pillCluster0],
      (relabel (mkNewCluster 0 pillCluster0) pillCluster0).clusterLabel = c.label.toString ∧
      (relabel (mkNewCluster 0 pillCluster0) pillCluster0).clusterColor = c.colorHex ∧
      (relabel (mkNewCluster 0 pillCluster0) pillCluster0).core ∈ c.members.map Pill.core := by
  apply (clusterPills_partitions.2 [pillCluster0]).2.2
  have hbuild : buildClusters [pillCluster0] = [mkNewCluster 0 pillCluster0] := by
    unfold buildClusters
    rw [List.foldl_cons, List.foldl_nil]
    unfold clusterStep
    have hbm : bestMatch [] pillCluster0 = none := rfl
    rw [hbm]
    rfl
  show relabel (mkNewCluster 0 pillCluster0) pillCluster0 ∈
    (buildClusters [pillCluster0]).flatMap (fun c => c.members.map (relabel c))
  rw [hbuild, List.flatMap_cons, List.flatMap_nil, List.append_nil]
  exact List.mem_map_of_mem _ (List.mem_cons_self _ _)

end PillCV
